import Mathlib

/-!
Verification of the safe-mutation pipeline of the anabasis-seo-spider
backend: circuit breaker, patch sandbox, patch engine, issue
deduplicator, file chunker, and the batch-approval workflow over them.
Each Python component is shallowly embedded as executable Lean
definitions mirroring the source control flow, and the documented
properties are proved or refuted against those definitions.
-/

/-! ## Circuit breaker (`app/services/circuit_breaker.py`)

Per-job failure counter with a one-way trip latch.  The Python class
keeps two `defaultdict`s (`failures : str -> int`, `tripped : str ->
bool`); we embed that state as two total functions from job keys.
-/

structure CircuitBreaker where
  failures : String → Nat
  tripped : String → Bool

namespace CircuitBreaker

def FAILURE_THRESHOLD : Nat := 5

/-- `record_failure`: increment the per-job counter; once the counter
reaches the threshold the job is marked tripped and `true` is returned
(the caller should stop). -/
def record_failure (cb : CircuitBreaker) (job_id : String) : CircuitBreaker × Bool :=
  if FAILURE_THRESHOLD ≤ cb.failures job_id + 1 then
    (⟨fun k => if k = job_id then cb.failures job_id + 1 else cb.failures k,
      fun k => if k = job_id then true else cb.tripped k⟩, true)
  else
    (⟨fun k => if k = job_id then cb.failures job_id + 1 else cb.failures k, cb.tripped⟩, false)

/-- `record_success`: reset the per-job counter to zero (the Python code
only assigns when the counter is positive, which has the same effect);
the tripped flag is left untouched. -/
def record_success (cb : CircuitBreaker) (job_id : String) : CircuitBreaker :=
  if 0 < cb.failures job_id then
    ⟨fun k => if k = job_id then 0 else cb.failures k, cb.tripped⟩
  else cb

def is_tripped (cb : CircuitBreaker) (job_id : String) : Bool :=
  cb.tripped job_id

def get_failure_count (cb : CircuitBreaker) (job_id : String) : Nat :=
  cb.failures job_id

/-- `reset`: clear both counter and tripped flag for one job. -/
def reset (cb : CircuitBreaker) (job_id : String) : CircuitBreaker :=
  ⟨fun k => if k = job_id then 0 else cb.failures k,
   fun k => if k = job_id then false else cb.tripped k⟩

/-- State-changing operations of the breaker (the read-only accessors
`is_tripped`, `get_failure_count`, `get_status` do not modify state). -/
inductive BOp where
  | fail (j : String)
  | succ (j : String)
  | resetOp (j : String)
deriving DecidableEq

def bstep (cb : CircuitBreaker) : BOp → CircuitBreaker
  | .fail j => (record_failure cb j).1
  | .succ j => record_success cb j
  | .resetOp j => reset cb j

/-- One `record_failure`, keeping only the state. -/
def rf1 (job_id : String) (cb : CircuitBreaker) : CircuitBreaker :=
  (record_failure cb job_id).1

lemma rf1_failures_self (cb : CircuitBreaker) (k : String) :
    (rf1 k cb).failures k = cb.failures k + 1 := by
  unfold rf1 record_failure
  split <;> simp

lemma iterate_rf1_failures (cb : CircuitBreaker) (k : String) :
    ∀ n, ((rf1 k)^[n] cb).failures k = cb.failures k + n := by
  intro n
  induction n with
  | zero => simp
  | succ m ih =>
    rw [Function.iterate_succ_apply', rf1_failures_self, ih]
    omega

lemma rf1_tripped_mono (cb : CircuitBreaker) (k j : String)
    (h : cb.tripped k = true) : (rf1 j cb).tripped k = true := by
  unfold rf1 record_failure
  split
  · show (if k = j then true else cb.tripped k) = true
    by_cases hkj : k = j <;> simp [hkj, h]
  · exact h

lemma rf1_tripped_of_threshold (cb : CircuitBreaker) (k : String)
    (h : FAILURE_THRESHOLD ≤ cb.failures k + 1) : (rf1 k cb).tripped k = true := by
  unfold rf1 record_failure
  rw [if_pos h]
  show (if k = k then true else cb.tripped k) = true
  simp

lemma record_success_tripped (cb : CircuitBreaker) (k j : String) :
    (record_success cb j).tripped k = cb.tripped k := by
  unfold record_success
  split <;> rfl

end CircuitBreaker

/-! ## Patch sandbox (`app/services/patch_sandbox.py`)

`apply_and_validate` copies the original file to a scratch path, runs
the patch function against the scratch copy, validates the scratch
copy, and only on validation success copies the scratch content back
over the original path.  We embed the file system view relevant to one
call as the content of the original file and of the scratch copy, and
additionally count how many times the original path is written. -/

structure SandboxOutcome where
  success : Bool
  error : Option String
  origContent : String
  tempContent : String
  origWrites : Nat
deriving DecidableEq

namespace PatchSandbox

/-- `PatchSandbox.apply_and_validate`.  `patch_func` returns the new
scratch content or an error; `validate_func` returns the validity flag
and an optional error message, exactly like the Python pair
`(is_valid, validation_error)`. -/
def apply_and_validate (orig : String)
    (patch_func : String → Except String String)
    (validate_func : String → Bool × Option String) : SandboxOutcome :=
  let temp := orig
  match patch_func temp with
  | .error e => ⟨false, some e, orig, temp, 0⟩
  | .ok temp2 =>
    match validate_func temp2 with
    | (false, ve) => ⟨false, ve, orig, temp2, 0⟩
    | (true, _) => ⟨true, none, temp2, temp2, 1⟩

end PatchSandbox

/-- Claim C1 (sandbox atomicity): for every original content, patch
function and validation function, if the patch function fails or the
validation reports failure, the original file's content after
`apply_and_validate` is identical to its content before the call and
the original path is never written; the original path is overwritten
exactly once, and only on the path where both apply and validation
succeeded. -/
theorem sandbox_atomicity (orig : String)
    (patch_func : String → Except String String)
    (validate_func : String → Bool × Option String) :
    ((PatchSandbox.apply_and_validate orig patch_func validate_func).success = false →
      (PatchSandbox.apply_and_validate orig patch_func validate_func).origContent = orig ∧
      (PatchSandbox.apply_and_validate orig patch_func validate_func).origWrites = 0) ∧
    ((PatchSandbox.apply_and_validate orig patch_func validate_func).success = true ↔
      (PatchSandbox.apply_and_validate orig patch_func validate_func).origWrites = 1) ∧
    (PatchSandbox.apply_and_validate orig patch_func validate_func).origWrites ≤ 1 ∧
    ((PatchSandbox.apply_and_validate orig patch_func validate_func).success = true →
      ∃ patched, patch_func orig = .ok patched ∧ (validate_func patched).1 = true ∧
        (PatchSandbox.apply_and_validate orig patch_func validate_func).origContent = patched) := by
  unfold PatchSandbox.apply_and_validate
  rcases hp : patch_func orig with e | patched
  · simp [hp]
  · rcases hv : validate_func patched with ⟨b, ve⟩
    cases b
    · simp [hp, hv]
    · simp [hp, hv]

/-- Witness for C1: concrete run in which validation fails; the
original content is untouched and never written. -/
theorem sandbox_atomicity_witness :
    (PatchSandbox.apply_and_validate "original bytes"
        (fun s => .ok (s ++ " patched"))
        (fun _ => (false, some "invalid"))).origContent = "original bytes" ∧
    (PatchSandbox.apply_and_validate "original bytes"
        (fun s => .ok (s ++ " patched"))
        (fun _ => (false, some "invalid"))).origWrites = 0 :=
  (sandbox_atomicity "original bytes"
      (fun s => .ok (s ++ " patched"))
      (fun _ => (false, some "invalid"))).1 rfl

/-- Claim C3 (breaker one-way latch): from any state, 5 consecutive
`record_failure` calls for key `k` leave `is_tripped k` true; from any
tripped state `record_success` resets the failure counter to 0 but
leaves the tripped flag set; among the state-changing operations only
`reset k` clears a set tripped flag for `k`. -/
theorem breaker_latch (cb : CircuitBreaker) (k : String) :
    CircuitBreaker.is_tripped ((CircuitBreaker.rf1 k)^[5] cb) k = true ∧
    (CircuitBreaker.is_tripped cb k = true →
      CircuitBreaker.is_tripped (CircuitBreaker.record_success cb k) k = true ∧
      CircuitBreaker.get_failure_count (CircuitBreaker.record_success cb k) k = 0) ∧
    (∀ op : CircuitBreaker.BOp, CircuitBreaker.is_tripped cb k = true →
      (CircuitBreaker.is_tripped (CircuitBreaker.bstep cb op) k = false ↔
        op = CircuitBreaker.BOp.resetOp k)) := by
  refine ⟨?_, ?_, ?_⟩
  · show ((CircuitBreaker.rf1 k)^[5] cb).tripped k = true
    rw [show (5 : Nat) = 4 + 1 from rfl, Function.iterate_succ_apply']
    refine CircuitBreaker.rf1_tripped_of_threshold _ k ?_
    rw [CircuitBreaker.iterate_rf1_failures]
    unfold CircuitBreaker.FAILURE_THRESHOLD
    omega
  · intro h
    constructor
    · show (CircuitBreaker.record_success cb k).tripped k = true
      rw [CircuitBreaker.record_success_tripped]; exact h
    · show (CircuitBreaker.record_success cb k).failures k = 0
      unfold CircuitBreaker.record_success
      split
      · simp
      · omega
  · intro op h
    have h' : cb.tripped k = true := h
    cases op with
    | fail j =>
      constructor
      · intro hfalse
        have hm : (CircuitBreaker.rf1 j cb).tripped k = true :=
          CircuitBreaker.rf1_tripped_mono cb k j h'
        have hf : (CircuitBreaker.rf1 j cb).tripped k = false := hfalse
        rw [hm] at hf; cases hf
      · intro hc; cases hc
    | succ j =>
      constructor
      · intro hfalse
        have hf : (CircuitBreaker.record_success cb j).tripped k = false := hfalse
        rw [CircuitBreaker.record_success_tripped, h'] at hf
        cases hf
      · intro hc; cases hc
    | resetOp j =>
      by_cases hkj : k = j
      · subst hkj
        constructor
        · intro _; rfl
        · intro _
          show (CircuitBreaker.reset cb k).tripped k = false
          unfold CircuitBreaker.reset
          simp
      · constructor
        · intro hfalse
          have hf : (CircuitBreaker.reset cb j).tripped k = false := hfalse
          unfold CircuitBreaker.reset at hf
          simp only [hkj, if_false] at hf
          rw [h'] at hf; cases hf
        · intro hc
          injection hc with he
          exact absurd he.symm hkj

/-- Witness for C3: from the fresh breaker, 5 failures trip job `"J1"`,
and from that tripped state a success keeps the latch while only
`reset` clears it. -/
theorem breaker_latch_witness :
    CircuitBreaker.is_tripped
      ((CircuitBreaker.rf1 "J1")^[5] ⟨fun _ => 0, fun _ => false⟩) "J1" = true :=
  (breaker_latch ⟨fun _ => 0, fun _ => false⟩ "J1").1

/-! ## Batch approval loop (`app/routers/patches.py`, `approve_issues`)

The loop over `approval.issue_ids`: for each issue it first checks the
breaker (`continue` when already tripped), then applies the patch in
the sandbox; on sandbox success it runs the database transaction and
records success (or records a failure on a transaction error, without
breaking), and on sandbox failure it records a failure and `break`s
out of the loop when `record_failure` reports that the breaker
tripped.  We abstract the sandbox and the database transaction into
two boolean fields of the edit and keep the per-iteration result list,
which is exactly what the endpoint returns. -/

structure BatchEdit where
  id : Nat
  job : String
  sandboxOk : Bool
  txOk : Bool
deriving DecidableEq

inductive Outcome where
  | applied
  | txFailed
  | failed
  | tripped
deriving DecidableEq

def approve_issues (cb : CircuitBreaker) :
    List BatchEdit → CircuitBreaker × List (Nat × Outcome)
  | [] => (cb, [])
  | e :: rest =>
    if CircuitBreaker.is_tripped cb e.job then
      let r := approve_issues cb rest
      (r.1, (e.id, Outcome.tripped) :: r.2)
    else if e.sandboxOk then
      if e.txOk then
        let cb2 := CircuitBreaker.record_success cb e.job
        let r := approve_issues cb2 rest
        (r.1, (e.id, Outcome.applied) :: r.2)
      else
        let cb2 := (CircuitBreaker.record_failure cb e.job).1
        let r := approve_issues cb2 rest
        (r.1, (e.id, Outcome.txFailed) :: r.2)
    else
      let p := CircuitBreaker.record_failure cb e.job
      if p.2 then (p.1, [(e.id, Outcome.failed)])
      else
        let r := approve_issues p.1 rest
        (r.1, (e.id, Outcome.failed) :: r.2)

/-- A breaker state already tripped for job `"J"`. -/
def cbTripped : CircuitBreaker :=
  ⟨fun _ => 5, fun k => k == "J"⟩

/-- Counterexample to claim C4 as stated: with the breaker already
tripped for job `"J"`, a batch of two approved edits is NOT stopped at
the first tripped report — the loop `continue`s and also examines the
second edit, emitting a `circuit_breaker_tripped` result for each, so
the result list has two entries where a halt would have produced one. -/
theorem approve_skips_not_stops :
    (approve_issues cbTripped
        [⟨1, "J", true, true⟩, ⟨2, "J", true, true⟩]).2
      = [(1, Outcome.tripped), (2, Outcome.tripped)] ∧
    ((approve_issues cbTripped
        [⟨1, "J", true, true⟩, ⟨2, "J", true, true⟩]).2).length ≠ 1 := by
  constructor
  · rfl
  · decide

/-- Unfolding of one approval-loop iteration. -/
lemma approve_cons (cb : CircuitBreaker) (e : BatchEdit) (rest : List BatchEdit) :
    approve_issues cb (e :: rest) =
      if CircuitBreaker.is_tripped cb e.job then
        ((approve_issues cb rest).1, (e.id, Outcome.tripped) :: (approve_issues cb rest).2)
      else if e.sandboxOk then
        if e.txOk then
          ((approve_issues (CircuitBreaker.record_success cb e.job) rest).1,
            (e.id, Outcome.applied) ::
              (approve_issues (CircuitBreaker.record_success cb e.job) rest).2)
        else
          ((approve_issues ((CircuitBreaker.record_failure cb e.job).1) rest).1,
            (e.id, Outcome.txFailed) ::
              (approve_issues ((CircuitBreaker.record_failure cb e.job).1) rest).2)
      else if (CircuitBreaker.record_failure cb e.job).2 then
        ((CircuitBreaker.record_failure cb e.job).1, [(e.id, Outcome.failed)])
      else
        ((approve_issues ((CircuitBreaker.record_failure cb e.job).1) rest).1,
          (e.id, Outcome.failed) ::
            (approve_issues ((CircuitBreaker.record_failure cb e.job).1) rest).2) := rfl

/-- If the breaker is already tripped for the batch's job, every edit of
the batch is skipped (marked tripped) and the breaker state is
returned unchanged: the loop `continue`s over all of them. -/
lemma approve_all_tripped (J : String) :
    ∀ (edits : List BatchEdit) (cb : CircuitBreaker),
      (∀ e ∈ edits, e.job = J) → CircuitBreaker.is_tripped cb J = true →
      approve_issues cb edits = (cb, edits.map (fun e => (e.id, Outcome.tripped))) := by
  intro edits
  induction edits with
  | nil => intro cb _ _; rfl
  | cons e rest ih =>
    intro cb hJ htrip
    have hej : e.job = J := hJ e (List.mem_cons_self e rest)
    have htripe : CircuitBreaker.is_tripped cb e.job = true := by rw [hej]; exact htrip
    rw [approve_cons, if_pos htripe,
      ih cb (fun e' he' => hJ e' (List.mem_cons_of_mem _ he')) htrip]
    simp

/-- Once a result entry in the approval loop's result list is
`tripped`, every later entry is `tripped` as well (the breaker never
un-trips during a batch). -/
lemma approve_tripped_suffix (J : String) :
    ∀ (edits : List BatchEdit) (cb : CircuitBreaker),
      (∀ e ∈ edits, e.job = J) →
      ∀ m n : Nat, m ≤ n → n < ((approve_issues cb edits).2).length →
      (((approve_issues cb edits).2).getD m (0, Outcome.applied)).2 = Outcome.tripped →
      (((approve_issues cb edits).2).getD n (0, Outcome.applied)).2 = Outcome.tripped := by
  intro edits
  induction edits with
  | nil =>
    intro cb _ m n _ hn _
    simp [approve_issues] at hn
  | cons e rest ih =>
    intro cb hJ m n hmn hn hm
    have hej : e.job = J := hJ e (List.mem_cons_self e rest)
    have hJr : ∀ e' ∈ rest, e'.job = J := fun e' he' => hJ e' (List.mem_cons_of_mem _ he')
    by_cases htrip : CircuitBreaker.is_tripped cb e.job = true
    · have hcbJ : CircuitBreaker.is_tripped cb J = true := by rw [← hej]; exact htrip
      have hres := approve_all_tripped J (e :: rest) cb hJ hcbJ
      rw [hres] at hn ⊢
      show (((e :: rest).map (fun e' => (e'.id, Outcome.tripped))).getD n
          (0, Outcome.applied)).2 = Outcome.tripped
      have hn' : n < ((e :: rest).map (fun e' => (e'.id, Outcome.tripped))).length := by
        simpa using hn
      have hmem : ((e :: rest).map (fun e' => (e'.id, Outcome.tripped))).getD n
          (0, Outcome.applied) ∈ (e :: rest).map (fun e' => (e'.id, Outcome.tripped)) := by
        rw [List.getD_eq_getElem _ _ hn']
        exact List.getElem_mem hn'
      rcases List.mem_map.mp hmem with ⟨e', _, he'⟩
      rw [← he']
    · rw [approve_cons, if_neg htrip] at hn hm ⊢
      by_cases hsand : e.sandboxOk = true
      · rw [if_pos hsand] at hn hm ⊢
        by_cases htx : e.txOk = true
        · rw [if_pos htx] at hn hm ⊢
          cases m with
          | zero => simp at hm
          | succ m' =>
            cases n with
            | zero => omega
            | succ n' =>
              simp only [List.getD_cons_succ] at hm ⊢
              refine ih (CircuitBreaker.record_success cb e.job) hJr m' n' (by omega) ?_ hm
              simpa using hn
        · rw [if_neg htx] at hn hm ⊢
          cases m with
          | zero => simp at hm
          | succ m' =>
            cases n with
            | zero => omega
            | succ n' =>
              simp only [List.getD_cons_succ] at hm ⊢
              refine ih ((CircuitBreaker.record_failure cb e.job).1) hJr m' n' (by omega) ?_ hm
              simpa using hn
      · rw [if_neg hsand] at hn hm ⊢
        by_cases hstop : (CircuitBreaker.record_failure cb e.job).2 = true
        · rw [if_pos hstop] at hn hm ⊢
          cases m with
          | zero => simp at hm
          | succ m' =>
            cases n with
            | zero => omega
            | succ n' => simp at hn
        · rw [if_neg hstop] at hn hm ⊢
          cases m with
          | zero => simp at hm
          | succ m' =>
            cases n with
            | zero => omega
            | succ n' =>
              simp only [List.getD_cons_succ] at hm ⊢
              refine ih ((CircuitBreaker.record_failure cb e.job).1) hJr m' n' (by omega) ?_ hm
              simpa using hn

/-- The approval loop produces fewer results than it was given edits
only by `break`ing, and it only breaks right after a sandbox-failure
result whose `record_failure` tripped the breaker: a truncated result
list always ends in a `failed` entry. -/
lemma approve_stop_short (J : String) :
    ∀ (edits : List BatchEdit) (cb : CircuitBreaker),
      (∀ e ∈ edits, e.job = J) →
      ((approve_issues cb edits).2).length < edits.length →
      ∃ l1 i, (approve_issues cb edits).2 = l1 ++ [(i, Outcome.failed)] := by
  intro edits
  induction edits with
  | nil => intro cb _ h; simp [approve_issues] at h
  | cons e rest ih =>
    intro cb hJ hlen
    have hej : e.job = J := hJ e (List.mem_cons_self e rest)
    have hJr : ∀ e' ∈ rest, e'.job = J := fun e' he' => hJ e' (List.mem_cons_of_mem _ he')
    by_cases htrip : CircuitBreaker.is_tripped cb e.job = true
    · have hcbJ : CircuitBreaker.is_tripped cb J = true := by rw [← hej]; exact htrip
      rw [approve_all_tripped J (e :: rest) cb hJ hcbJ] at hlen
      simp at hlen
    · rw [approve_cons, if_neg htrip] at hlen ⊢
      by_cases hsand : e.sandboxOk = true
      · rw [if_pos hsand] at hlen ⊢
        by_cases htx : e.txOk = true
        · rw [if_pos htx] at hlen ⊢
          rcases ih (CircuitBreaker.record_success cb e.job) hJr (by simpa using hlen)
            with ⟨l1, i, hl⟩
          exact ⟨(e.id, Outcome.applied) :: l1, i, by simp [hl]⟩
        · rw [if_neg htx] at hlen ⊢
          rcases ih ((CircuitBreaker.record_failure cb e.job).1) hJr (by simpa using hlen)
            with ⟨l1, i, hl⟩
          exact ⟨(e.id, Outcome.txFailed) :: l1, i, by simp [hl]⟩
      · rw [if_neg hsand] at hlen ⊢
        by_cases hstop : (CircuitBreaker.record_failure cb e.job).2 = true
        · rw [if_pos hstop]
          exact ⟨[], e.id, rfl⟩
        · rw [if_neg hstop] at hlen ⊢
          rcases ih ((CircuitBreaker.record_failure cb e.job).1) hJr (by simpa using hlen)
            with ⟨l1, i, hl⟩
          exact ⟨(e.id, Outcome.failed) :: l1, i, by simp [hl]⟩

/-- Claim C4, amended: for a batch whose edits all belong to job `J`:
(1) if the breaker is already tripped for `J` at entry, every edit is
skipped with a `circuit_breaker_tripped` result (`continue`, not a
halt) and neither the breaker state nor any edit status changes;
(2) once a result reports tripped, every later result also reports
tripped — no edit is applied or failed after the breaker is tripped;
(3) the loop stops early (returns fewer results than edits) only via
the `break` taken immediately after a sandbox failure whose
`record_failure` tripped the breaker, so a truncated result list ends
in a `failed` entry and the remaining edits get no result at all. -/
theorem approve_halt_amended (cb : CircuitBreaker) (J : String) (edits : List BatchEdit)
    (hJ : ∀ e ∈ edits, e.job = J) :
    (CircuitBreaker.is_tripped cb J = true →
      approve_issues cb edits = (cb, edits.map (fun e => (e.id, Outcome.tripped)))) ∧
    (∀ m n : Nat, m ≤ n → n < ((approve_issues cb edits).2).length →
      (((approve_issues cb edits).2).getD m (0, Outcome.applied)).2 = Outcome.tripped →
      (((approve_issues cb edits).2).getD n (0, Outcome.applied)).2 = Outcome.tripped) ∧
    (((approve_issues cb edits).2).length < edits.length →
      ∃ l1 i, (approve_issues cb edits).2 = l1 ++ [(i, Outcome.failed)]) :=
  ⟨fun htrip => approve_all_tripped J edits cb hJ htrip,
   fun m n hmn hn hm => approve_tripped_suffix J edits cb hJ m n hmn hn hm,
   fun hlen => approve_stop_short J edits cb hJ hlen⟩

/-- Witness for C4's amended claim: a pre-tripped breaker makes the
loop skip a (would-be successful) edit with a tripped result, leaving
the breaker unchanged. -/
theorem approve_halt_amended_witness :
    approve_issues cbTripped [⟨3, "J", true, true⟩] =
      (cbTripped, [(3, Outcome.tripped)]) :=
  (approve_halt_amended cbTripped "J" [⟨3, "J", true, true⟩]
      (by intro e he; simp at he; rw [he])).1 rfl

/-! ## Patch engine line edits (`app/services/patch_engine.py`)

`_apply_line_patch` and `_apply_dom_patch` both split the content with
`splitlines(keepends=True)` and edit the resulting line list; we embed
the content directly as that list of lines (each line keeping its
trailing newline).  Python `list.insert` accepts negative indices,
counting from the end, which `pyInsert` reproduces; `str.lstrip`
strips the Python whitespace class, which `pyLstrip` reproduces. -/

namespace PatchEngine

/-- Python's `str` whitespace class, as used by `lstrip()`. -/
def pyIsSpace (c : Char) : Bool :=
  c = ' ' || c = '\t' || c = '\n' || c = '\r' || c = '\x0b' || c = '\x0c'

/-- Python `s.lstrip()`. -/
def pyLstrip (s : String) : String :=
  String.mk (s.data.dropWhile pyIsSpace)

/-- Python `list.insert(i, x)`: a negative index counts from the end
(clamped at the front), a positive index is clamped at the end. -/
def pyInsert {α : Type} (xs : List α) (i : Int) (x : α) : List α :=
  if i < 0 then
    xs.take ((max ((xs.length : Int) + i) 0).toNat) ++
      x :: xs.drop ((max ((xs.length : Int) + i) 0).toNat)
  else
    xs.take (min i.toNat xs.length) ++ x :: xs.drop (min i.toNat xs.length)

/-- `PatchEngine._apply_line_patch` (line-based strategy, used for
source-code files).  `replace_line` re-indents the payload with as many
space characters as the original line had leading-whitespace
characters; `insert_after_line` only rejects `line_number` greater than
the line count; unknown actions return the content unchanged. -/
def apply_line_patch (lines : List String) (line_number : Int) (action code : String) :
    Except String (List String) :=
  if action = "insert_after_line" then
    if line_number ≤ (lines.length : Int) then
      .ok (pyInsert lines line_number (code ++ "\n"))
    else .error "Line number out of range"
  else if action = "replace_line" then
    if 0 < line_number ∧ line_number ≤ (lines.length : Int) then
      .ok (lines.set (line_number - 1).toNat
        (String.mk (List.replicate
            ((lines.getD (line_number - 1).toNat "").length -
              (pyLstrip (lines.getD (line_number - 1).toNat "")).length) ' ') ++
          pyLstrip code ++ "\n"))
    else .error "Line number out of range"
  else if action = "annotate" then
    if 0 < line_number ∧ line_number ≤ (lines.length : Int) then
      .ok (pyInsert lines line_number ("// SEO NOTE: " ++ code ++ "\n"))
    else .error "Line number out of range"
  else .ok lines

/-- `PatchEngine._apply_dom_patch` (markup strategy): same shape, but
`replace_line` does not re-indent and `annotate` uses a markup
comment. -/
def apply_dom_patch (lines : List String) (line_number : Int) (action code : String) :
    Except String (List String) :=
  if action = "insert_after_line" then
    if line_number ≤ (lines.length : Int) then
      .ok (pyInsert lines line_number (code ++ "\n"))
    else .error "Line number out of range"
  else if action = "replace_line" then
    if 0 < line_number ∧ line_number ≤ (lines.length : Int) then
      .ok (lines.set (line_number - 1).toNat (code ++ "\n"))
    else .error "Line number out of range"
  else if action = "annotate" then
    if 0 < line_number ∧ line_number ≤ (lines.length : Int) then
      .ok (pyInsert lines line_number ("<!-- SEO NOTE: " ++ code ++ " -->\n"))
    else .error "Line number out of range"
  else .ok lines

def exceptOk {ε α : Type} : Except ε α → Bool
  | .ok _ => true
  | .error _ => false

end PatchEngine

/-! ## Approve-then-rollback flow
(`app/routers/patches.py`, success branch of `approve_issues` followed
by `rollback_patch`, with `PatchEngine.rollback`)

On sandbox success the endpoint first lets the sandbox copy the
patched scratch content over the original file, and only THEN calls
`patch_engine.create_backup(issue.file_path)` — so the recorded backup
is a copy of the already-patched file.  `rollback_patch` looks up that
recorded backup, copies it back over the file, and flips
`rollback_available` to `False` so a second rollback is rejected. -/

structure ApproveState where
  fileContent : String
  backupContent : Option String
  rollbackAvailable : Bool
deriving DecidableEq

/-- The success path of `approve_issues` for one edit: sandbox-apply
and validate, commit the scratch copy over the original, then create
the recorded backup from the (now patched) original file. -/
def approve_flow (orig : String) (applyEdit : String → String)
    (validateFn : String → Bool) : ApproveState :=
  if validateFn (applyEdit orig) then
    ⟨applyEdit orig, some (applyEdit orig), true⟩
  else
    ⟨orig, none, false⟩

/-- `rollback_patch`: 404 when there is no recorded history, 400 when
`rollback_available` is already cleared, otherwise restore the file
from the recorded backup and clear `rollback_available`. -/
def rollback_patch (st : ApproveState) : Except String ApproveState :=
  match st.backupContent with
  | none => .error "Patch history not found"
  | some b =>
    if st.rollbackAvailable then
      .ok ⟨b, st.backupContent, false⟩
    else .error "Rollback not available"

/-- Claim C2 is a code bug: because `approve_issues` creates the
recorded backup only after the sandbox has already overwritten the
original file, the backup holds the patched bytes.  Rolling back an
applied edit therefore succeeds but leaves the patched content in
place instead of restoring the pre-patch content ("old line" is never
recovered).  The second half of the claim does hold: a second rollback
attempt on the same record is rejected. -/
theorem rollback_restores_patched_content :
    rollback_patch (approve_flow "old line\n" (fun _ => "new line\n") (fun _ => true)) =
      .ok ⟨"new line\n", some "new line\n", false⟩ ∧
    "new line\n" ≠ "old line\n" ∧
    rollback_patch ⟨"new line\n", some "new line\n", false⟩ =
      .error "Rollback not available" := by
  refine ⟨rfl, by decide, rfl⟩

namespace PatchEngine

lemma dropWhile_head_false {p : Char → Bool} :
    ∀ (l : List Char) (a : Char) (as : List Char),
      l.dropWhile p = a :: as → p a = false := by
  intro l
  induction l with
  | nil => intro a as h; cases h
  | cons x xs ih =>
    intro a as h
    by_cases hx : p x = true
    · rw [List.dropWhile_cons, if_pos hx] at h
      exact ih a as h
    · rw [List.dropWhile_cons, if_neg hx] at h
      cases h
      simpa using hx

lemma spaces_takeWhile (l : List Char)
    (hl : ∀ a as, l = a :: as → pyIsSpace a = false) :
    ∀ m : Nat,
      (List.replicate m ' ' ++ l).takeWhile pyIsSpace = List.replicate m ' ' ∧
      (List.replicate m ' ' ++ l).dropWhile pyIsSpace = l := by
  intro m
  induction m with
  | zero =>
    simp only [List.replicate, List.nil_append]
    cases hc : l with
    | nil => simp
    | cons a as =>
      have ha := hl a as hc
      rw [List.takeWhile_cons, List.dropWhile_cons, if_neg (by simp [ha]), if_neg (by simp [ha])]
      exact ⟨rfl, rfl⟩
  | succ m ih =>
    rw [List.replicate_succ, List.cons_append, List.takeWhile_cons, List.dropWhile_cons]
    have hsp : pyIsSpace ' ' = true := rfl
    rw [if_pos (by simp [hsp]), if_pos (by simp [hsp])]
    exact ⟨by rw [ih.1], ih.2⟩

lemma list_getD_set_self {α : Type} :
    ∀ (l : List α) (i : Nat) (x d : α), i < l.length → (l.set i x).getD i d = x := by
  intro l
  induction l with
  | nil => intro i x d h; simp at h
  | cons a as ih =>
    intro i x d h
    cases i with
    | zero => rfl
    | succ i' =>
      simp only [List.set_cons_succ, List.getD_cons_succ]
      exact ih i' x d (by simpa using h)

lemma list_getD_set_ne {α : Type} :
    ∀ (l : List α) (i j : Nat) (x d : α), i ≠ j → (l.set i x).getD j d = l.getD j d := by
  intro l
  induction l with
  | nil => intro i j x d _; simp
  | cons a as ih =>
    intro i j x d hij
    cases i with
    | zero =>
      cases j with
      | zero => exact absurd rfl hij
      | succ j' => rfl
    | succ i' =>
      cases j with
      | zero => rfl
      | succ j' =>
        simp only [List.set_cons_succ, List.getD_cons_succ]
        exact ih i' j' x d (fun he => hij (by rw [he]))

lemma pyInsert_neg {α : Type} (xs : List α) (n : Int) (x : α)
    (hn : n < 0) (hb : n.natAbs ≤ xs.length) :
    pyInsert xs n x
      = xs.take (xs.length - n.natAbs) ++ x :: xs.drop (xs.length - n.natAbs) := by
  unfold pyInsert
  rw [if_pos hn]
  have h0 : (0 : Int) ≤ (xs.length : Int) + n := by omega
  have hidx : (max ((xs.length : Int) + n) 0).toNat = xs.length - n.natAbs := by
    rw [max_eq_left h0]
    omega
  rw [hidx]

end PatchEngine

/-- Counterexample to claim C9 as stated: the line-based `replace_line`
does not reproduce the original line's leading whitespace byte for
byte.  It counts the leading-whitespace characters and emits that many
SPACE characters: replacing the tab-indented line `"\tfoo"` with
payload `"bar"` yields `" bar"`, whose leading whitespace (one space)
differs from the original's (one tab); the payload is also `lstrip`ped
before being appended. -/
theorem replace_line_indent_counterexample :
    PatchEngine.apply_line_patch ["\tfoo\n"] 1 "replace_line" "bar" = .ok [" bar\n"] ∧
    ¬ (" bar\n").data.takeWhile PatchEngine.pyIsSpace
        = ("\tfoo\n").data.takeWhile PatchEngine.pyIsSpace := by
  constructor
  · rfl
  · decide

/-- Claim C9, amended: for a valid `replace_line` via the line-based
strategy, with a payload that is nonempty after left-strip, the
patched line's leading whitespace is a run of SPACE characters whose
length equals the length of the original line's leading-whitespace
run, followed by the payload stripped of its own leading whitespace
and a newline; all other lines are unchanged. -/
theorem replace_line_indent_amended (lines : List String) (n : Nat) (code : String)
    (h1 : 0 < n) (h2 : n ≤ lines.length) (h3 : PatchEngine.pyLstrip code ≠ "") :
    ∃ out, PatchEngine.apply_line_patch lines (n : Int) "replace_line" code = .ok out ∧
      (out.getD (n - 1) "").data.takeWhile PatchEngine.pyIsSpace
        = List.replicate
            (((lines.getD (n - 1) "").data.takeWhile PatchEngine.pyIsSpace).length) ' ' ∧
      (out.getD (n - 1) "").data.dropWhile PatchEngine.pyIsSpace
        = (PatchEngine.pyLstrip code).data ++ ['\n'] ∧
      ∀ i, i ≠ n - 1 → out.getD i "" = lines.getD i "" := by
  have hc1 : ¬ ("replace_line" = "insert_after_line") := by decide
  have hcond : 0 < (n : Int) ∧ (n : Int) ≤ (lines.length : Int) := by
    constructor <;> [exact_mod_cast h1; exact_mod_cast h2]
  have hidx : ((n : Int) - 1).toNat = n - 1 := by omega
  unfold PatchEngine.apply_line_patch
  rw [if_neg hc1, if_pos rfl, if_pos hcond, hidx]
  set orig := lines.getD (n - 1) "" with horig
  set newline := String.mk (List.replicate
      (orig.length - (PatchEngine.pyLstrip orig).length) ' ') ++
      PatchEngine.pyLstrip code ++ "\n" with hnew
  refine ⟨lines.set (n - 1) newline, rfl, ?_, ?_, ?_⟩
  all_goals
    have hind : orig.length - (PatchEngine.pyLstrip orig).length
        = (orig.data.takeWhile PatchEngine.pyIsSpace).length := by
      have hsplit := congrArg List.length
        (List.takeWhile_append_dropWhile (p := PatchEngine.pyIsSpace) (l := orig.data))
      rw [List.length_append] at hsplit
      have hlen1 : orig.length = orig.data.length := rfl
      have hlen2 : (PatchEngine.pyLstrip orig).length
          = (orig.data.dropWhile PatchEngine.pyIsSpace).length := rfl
      omega
  all_goals
    have hget : (lines.set (n - 1) newline).getD (n - 1) "" = newline :=
      PatchEngine.list_getD_set_self lines (n - 1) newline "" (by omega)
  all_goals
    have hdata : newline.data = List.replicate
        (orig.length - (PatchEngine.pyLstrip orig).length) ' ' ++
        ((PatchEngine.pyLstrip code).data ++ ['\n']) := by
      rw [hnew]
      rw [String.data_append, String.data_append]
      simp
  all_goals
    have hhead : ∀ a as, (PatchEngine.pyLstrip code).data ++ ['\n'] = a :: as →
        PatchEngine.pyIsSpace a = false := by
      intro a as hcons
      cases hdp : code.data.dropWhile PatchEngine.pyIsSpace with
      | nil =>
        exfalso
        apply h3
        show String.mk (code.data.dropWhile PatchEngine.pyIsSpace) = ""
        rw [hdp]
      | cons b bs =>
        have hb := PatchEngine.dropWhile_head_false code.data b bs hdp
        have : (PatchEngine.pyLstrip code).data = b :: bs := by
          show code.data.dropWhile PatchEngine.pyIsSpace = b :: bs
          exact hdp
        rw [this] at hcons
        cases hcons
        exact hb
  · rw [hget, hdata, hind,
      (PatchEngine.spaces_takeWhile _ hhead _).1]
  · rw [hget, hdata,
      (PatchEngine.spaces_takeWhile _ hhead _).2]
  · intro i hi
    exact PatchEngine.list_getD_set_ne lines (n - 1) i newline "" (fun he => hi he.symm)

/-- Witness for C9's amended claim: replacing line 1 of `"\tfoo"` with
`"bar"` produces a line whose leading whitespace is one space (the
original's leading-whitespace run had length one) followed by the
stripped payload and a newline. -/
theorem replace_line_indent_amended_witness :
    ∃ out, PatchEngine.apply_line_patch ["\tfoo\n"] (1 : Int) "replace_line" "bar" = .ok out ∧
      (out.getD 0 "").data.takeWhile PatchEngine.pyIsSpace
        = List.replicate ((("\tfoo\n" : String).data.takeWhile PatchEngine.pyIsSpace).length) ' ' ∧
      (out.getD 0 "").data.dropWhile PatchEngine.pyIsSpace
        = (PatchEngine.pyLstrip "bar").data ++ ['\n'] ∧
      ∀ i, i ≠ 0 → out.getD i "" = (["\tfoo\n"] : List String).getD i "" := by
  have h := replace_line_indent_amended ["\tfoo\n"] 1 "bar" (by decide) (by decide) (by decide)
  simpa using h

/-- Claim C10 (implicit negative-index behaviour): for
`insert_after_line`, both the line-based and the DOM-based strategy
guard only against `line_number` exceeding the line count, so every
negative `line_number` is accepted, and (when it does not underflow
past the front) the payload is inserted at the position counted
backward from the end of the file, exactly Python's negative-index
`list.insert` semantics. -/
theorem insert_negative_line (lines : List String) (code : String) (n : Int) :
    (PatchEngine.exceptOk
        (PatchEngine.apply_line_patch lines n "insert_after_line" code) = true ↔
      n ≤ (lines.length : Int)) ∧
    (PatchEngine.exceptOk
        (PatchEngine.apply_dom_patch lines n "insert_after_line" code) = true ↔
      n ≤ (lines.length : Int)) ∧
    (n < 0 → n.natAbs ≤ lines.length →
      PatchEngine.apply_line_patch lines n "insert_after_line" code
        = .ok (lines.take (lines.length - n.natAbs) ++
            (code ++ "\n") :: lines.drop (lines.length - n.natAbs)) ∧
      PatchEngine.apply_dom_patch lines n "insert_after_line" code
        = .ok (lines.take (lines.length - n.natAbs) ++
            (code ++ "\n") :: lines.drop (lines.length - n.natAbs))) := by
  unfold PatchEngine.apply_line_patch PatchEngine.apply_dom_patch
  rw [if_pos rfl, if_pos rfl]
  refine ⟨?_, ?_, ?_⟩
  · by_cases hle : n ≤ (lines.length : Int) <;>
      simp [hle, PatchEngine.exceptOk]
  · by_cases hle : n ≤ (lines.length : Int) <;>
      simp [hle, PatchEngine.exceptOk]
  · intro hn hb
    have hle : n ≤ (lines.length : Int) := by omega
    rw [if_pos hle, PatchEngine.pyInsert_neg lines n (code ++ "\n") hn hb]
    exact ⟨rfl, rfl⟩

/-- Witness for C10: inserting with `line_number = -1` into a
three-line file succeeds and places the payload before the last line,
i.e. Python `list.insert(-1, x)`. -/
theorem insert_negative_line_witness :
    PatchEngine.apply_line_patch ["a\n", "b\n", "c\n"] (-1) "insert_after_line" "X"
      = .ok ["a\n", "b\n", "X\n", "c\n"] := by
  have h := (insert_negative_line ["a\n", "b\n", "c\n"] "X" (-1)).2.2
    (by decide) (by decide)
  rw [h.1]
  rfl

/-! ## Issue deduplicator (`app/services/deduplicator.py`)

`deduplicate_issues` groups issues by `(file_path, line_number)` (in
first-occurrence order, as a Python dict), leaves singleton groups
unchanged, marks every member of a conflicting group as `conflict`
with cross-references, and otherwise keeps the highest-severity member
(Python's `sorted(..., reverse=True)` is stable, so the earliest
input-order member wins ties) and marks the rest `superseded`. -/

structure Issue where
  id : Nat
  file_path : String
  line_number : Int
  action : String
  code : String
  severity : String
  status : String
  conflict_with : List Nat
  superseded_by : Option Nat
deriving DecidableEq

namespace IssueDeduplicator

/-- `SEVERITY_ORDER.get(severity, 0)`. -/
def SEVERITY_ORDER (s : String) : Nat :=
  if s = "critical" then 4
  else if s = "high" then 3
  else if s = "medium" then 2
  else if s = "low" then 1
  else 0

def key (i : Issue) : String × Int := (i.file_path, i.line_number)

def sevRank (i : Issue) : Nat := SEVERITY_ORDER i.severity

/-- Keys of the `grouped` dict, in first-occurrence order. -/
def insertKey (ks : List (String × Int)) (k : String × Int) : List (String × Int) :=
  if k ∈ ks then ks else ks ++ [k]

def groupKeys (issues : List Issue) : List (String × Int) :=
  issues.foldl (fun ks i => insertKey ks (key i)) []

/-- One group of the `grouped` dict, in input order. -/
def groupOf (issues : List Issue) (k : String × Int) : List Issue :=
  issues.filter (fun i => decide (key i = k))

/-- `_check_patch_conflict`: conflict iff some `replace_line` issue is
present and the `replace_line` issues carry more than one distinct
`code` payload. -/
def check_patch_conflict (g : List Issue) : Bool :=
  !((g.filter (fun i => i.action == "replace_line")).isEmpty) &&
    decide (1 < ((g.filter (fun i => i.action == "replace_line")).map
      (fun i => i.code)).dedup.length)

/-- Stable insertion step of a descending-by-rank sort: an element
moves past exactly the strictly lower-ranked elements. -/
def insertD (rank : Issue → Nat) (a : Issue) : List Issue → List Issue
  | [] => [a]
  | b :: bs => if rank b ≤ rank a then a :: b :: bs else b :: insertD rank a bs

/-- Python `sorted(key=rank, reverse=True)`: stable descending sort. -/
def stableSortDesc (rank : Issue → Nat) : List Issue → List Issue
  | [] => []
  | a :: as => insertD rank a (stableSortDesc rank as)

/-- Processing of one `(file_path, line_number)` group. -/
def processGroup (g : List Issue) : List Issue :=
  if g.length = 1 then g
  else if check_patch_conflict g then
    g.map (fun i =>
      { i with
        status := "conflict",
        conflict_with := (g.map (fun j => j.id)).filter (fun c => decide (¬ c = i.id)) })
  else
    match stableSortDesc sevRank g with
    | [] => []
    | kept :: others =>
      kept :: others.map (fun i =>
        { i with status := "superseded", superseded_by := some kept.id })

/-- `IssueDeduplicator.deduplicate_issues`. -/
def deduplicate_issues (issues : List Issue) : List Issue :=
  (groupKeys issues).flatMap (fun k => processGroup (groupOf issues k))

lemma groupOf_key (issues : List Issue) (k : String × Int) :
    ∀ i ∈ groupOf issues k, key i = k := by
  intro i hi
  have := List.mem_filter.mp hi
  simpa using this.2

lemma mem_insertKey (ks : List (String × Int)) (k k' : String × Int) :
    k' ∈ insertKey ks k ↔ k' ∈ ks ∨ k' = k := by
  unfold insertKey
  split
  · constructor
    · exact fun h => Or.inl h
    · rintro (h | rfl)
      · exact h
      · assumption
  · simp

lemma insertKey_nodup (ks : List (String × Int)) (k : String × Int)
    (h : ks.Nodup) : (insertKey ks k).Nodup := by
  unfold insertKey
  split
  · exact h
  · rw [List.nodup_append]
    exact ⟨h, List.nodup_singleton k, by simpa using fun hk => by simp_all⟩

lemma groupKeys_foldl_nodup (issues : List Issue) :
    ∀ ks : List (String × Int), ks.Nodup →
      (issues.foldl (fun ks i => insertKey ks (key i)) ks).Nodup := by
  induction issues with
  | nil => intro ks h; exact h
  | cons i rest ih =>
    intro ks h
    exact ih (insertKey ks (key i)) (insertKey_nodup ks (key i) h)

lemma groupKeys_nodup (issues : List Issue) : (groupKeys issues).Nodup :=
  groupKeys_foldl_nodup issues [] List.nodup_nil

lemma mem_groupKeys_foldl (issues : List Issue) :
    ∀ (ks : List (String × Int)) (k : String × Int),
      k ∈ issues.foldl (fun ks i => insertKey ks (key i)) ks ↔
        k ∈ ks ∨ ∃ i ∈ issues, key i = k := by
  induction issues with
  | nil => intro ks k; simp
  | cons i rest ih =>
    intro ks k
    rw [List.foldl_cons, ih (insertKey ks (key i)) k, mem_insertKey]
    constructor
    · rintro ((h | rfl) | ⟨j, hj, hkj⟩)
      · exact Or.inl h
      · exact Or.inr ⟨i, List.mem_cons_self i rest, rfl⟩
      · exact Or.inr ⟨j, List.mem_cons_of_mem _ hj, hkj⟩
    · rintro (h | ⟨j, hj, hkj⟩)
      · exact Or.inl (Or.inl h)
      · rcases List.mem_cons.mp hj with rfl | hj'
        · exact Or.inl (Or.inr hkj.symm)
        · exact Or.inr ⟨j, hj', hkj⟩

lemma mem_groupKeys (issues : List Issue) (k : String × Int) :
    k ∈ groupKeys issues ↔ ∃ i ∈ issues, key i = k := by
  rw [groupKeys, mem_groupKeys_foldl issues [] k]
  simp

lemma insertD_perm (rank : Issue → Nat) (a : Issue) :
    ∀ l : List Issue, (insertD rank a l).Perm (a :: l) := by
  intro l
  induction l with
  | nil => exact List.Perm.refl _
  | cons b bs ih =>
    unfold insertD
    split
    · exact List.Perm.refl _
    · exact ((ih.cons b).trans (List.Perm.swap a b bs))

lemma stableSortDesc_perm (rank : Issue → Nat) :
    ∀ l : List Issue, (stableSortDesc rank l).Perm l := by
  intro l
  induction l with
  | nil => exact List.Perm.refl _
  | cons a as ih =>
    unfold stableSortDesc
    exact (insertD_perm rank a (stableSortDesc rank as)).trans (ih.cons a)

/-- The head of the stable descending sort is the earliest input-order
element of maximal rank. -/
lemma sortDesc_cons_max (rank : Issue → Nat) :
    ∀ l : List Issue, l ≠ [] →
      ∃ kept rest, stableSortDesc rank l = kept :: rest ∧
        (∃ l1 l2, l = l1 ++ kept :: l2 ∧ ∀ j ∈ l1, rank j < rank kept) ∧
        (∀ j ∈ l, rank j ≤ rank kept) := by
  intro l
  induction l with
  | nil => intro h; exact absurd rfl h
  | cons a as ih =>
    intro _
    cases as with
    | nil =>
      refine ⟨a, [], rfl, ⟨[], [], rfl, by simp⟩, ?_⟩
      intro j hj
      rcases List.mem_singleton.mp hj with rfl
      exact le_rfl
    | cons b bs =>
      rcases ih (by simp) with ⟨kept', rest', hsort, ⟨l1', l2', hdec, hlt⟩, hmax⟩
      show ∃ kept rest,
        insertD rank a (stableSortDesc rank (b :: bs)) = kept :: rest ∧ _ ∧ _
      rw [hsort]
      unfold insertD
      by_cases hcmp : rank kept' ≤ rank a
      · rw [if_pos hcmp]
        refine ⟨a, kept' :: rest', rfl, ⟨[], b :: bs, rfl, by simp⟩, ?_⟩
        intro j hj
        rcases List.mem_cons.mp hj with rfl | hj'
        · exact le_rfl
        · exact le_trans (hmax j hj') hcmp
      · rw [if_neg hcmp]
        refine ⟨kept', insertD rank a rest', rfl,
          ⟨a :: l1', l2', by rw [hdec]; rfl, ?_⟩, ?_⟩
        · intro j hj
          rcases List.mem_cons.mp hj with rfl | hj'
          · omega
          · exact hlt j hj'
        · intro j hj
          rcases List.mem_cons.mp hj with rfl | hj'
          · omega
          · exact hmax j hj'

/-- Two distinct members force length at least two. -/
lemma two_mem_one_lt_length {α : Type} (l : List α) (a b : α)
    (ha : a ∈ l) (hb : b ∈ l) (hab : a ≠ b) : 1 < l.length := by
  cases l with
  | nil => simp at ha
  | cons x xs =>
    cases xs with
    | nil =>
      rcases List.mem_singleton.mp ha with rfl
      rcases List.mem_singleton.mp hb with rfl
      exact absurd rfl hab
    | cons y ys => simp

lemma one_lt_dedup_iff (l : List String) :
    1 < l.dedup.length ↔ ∃ x ∈ l, ∃ y ∈ l, x ≠ y := by
  constructor
  · intro h
    rcases hd : l.dedup with _ | ⟨x, _ | ⟨y, rest⟩⟩
    · rw [hd] at h; simp at h
    · rw [hd] at h; simp at h
    · have hnd := l.nodup_dedup
      rw [hd] at hnd
      have hxy : x ≠ y := by
        intro hxyeq
        subst hxyeq
        simp at hnd
      have hx : x ∈ l := List.mem_dedup.mp (by rw [hd]; exact List.mem_cons_self _ _)
      have hy : y ∈ l := List.mem_dedup.mp
        (by rw [hd]; exact List.mem_cons_of_mem _ (List.mem_cons_self _ _))
      exact ⟨x, hx, y, hy, hxy⟩
  · rintro ⟨x, hx, y, hy, hxy⟩
    exact two_mem_one_lt_length l.dedup x y (List.mem_dedup.mpr hx) (List.mem_dedup.mpr hy) hxy

/-- `_check_patch_conflict` decides exactly "some two `replace_line`
members carry different payloads". -/
lemma check_conflict_iff (g : List Issue) :
    check_patch_conflict g = true ↔
      ∃ a ∈ g, ∃ b ∈ g, a.action = "replace_line" ∧ b.action = "replace_line" ∧
        a.code ≠ b.code := by
  unfold check_patch_conflict
  rw [Bool.and_eq_true, Bool.not_eq_true', decide_eq_true_eq]
  constructor
  · rintro ⟨-, hlen⟩
    rcases (one_lt_dedup_iff _).mp hlen with ⟨x, hx, y, hy, hxy⟩
    rcases List.mem_map.mp hx with ⟨a, ha, hax⟩
    rcases List.mem_map.mp hy with ⟨b, hb, hby⟩
    have ha' := List.mem_filter.mp ha
    have hb' := List.mem_filter.mp hb
    refine ⟨a, ha'.1, b, hb'.1, by simpa using ha'.2, by simpa using hb'.2, ?_⟩
    rw [hax, hby]
    exact hxy
  · rintro ⟨a, ha, b, hb, haa, hba, hcode⟩
    have hamem : a ∈ g.filter (fun i => i.action == "replace_line") :=
      List.mem_filter.mpr ⟨ha, by simpa using haa⟩
    have hbmem : b ∈ g.filter (fun i => i.action == "replace_line") :=
      List.mem_filter.mpr ⟨hb, by simpa using hba⟩
    constructor
    · cases hfe : (g.filter (fun i => i.action == "replace_line")).isEmpty
      · rfl
      · exfalso
        rw [List.isEmpty_iff] at hfe
        rw [hfe] at hamem
        simp at hamem
    · exact (one_lt_dedup_iff _).mpr
        ⟨a.code, List.mem_map.mpr ⟨a, hamem, rfl⟩,
         b.code, List.mem_map.mpr ⟨b, hbmem, rfl⟩, hcode⟩

/-- Group purity is preserved by `processGroup`: every output member
carries the group's `(file_path, line_number)` key. -/
lemma processGroup_key (g : List Issue) (k : String × Int)
    (hg : ∀ i ∈ g, key i = k) : ∀ i ∈ processGroup g, key i = k := by
  intro i hi
  unfold processGroup at hi
  split at hi
  · exact hg i hi
  · split at hi
    · rcases List.mem_map.mp hi with ⟨j, hj, hji⟩
      rw [← hji]
      exact hg j hj
    · rcases hsort : stableSortDesc sevRank g with _ | ⟨kept, others⟩
      · rw [hsort] at hi; simp at hi
      · rw [hsort] at hi
        rcases List.mem_cons.mp hi with rfl | hi'
        · exact hg i ((stableSortDesc_perm sevRank g).mem_iff.mp
            (by rw [hsort]; exact List.mem_cons_self _ _))
        · rcases List.mem_map.mp hi' with ⟨j, hj, hji⟩
          have hjg : j ∈ g := (stableSortDesc_perm sevRank g).mem_iff.mp
            (by rw [hsort]; exact List.mem_cons_of_mem _ hj)
          rw [← hji]
          exact hg j hjg

lemma filter_flatMap_unique (f : (String × Int) → List Issue) (k : String × Int) :
    ∀ l : List (String × Int), l.Nodup → k ∈ l →
      (∀ k' ∈ l, ∀ i ∈ f k', key i = k') →
      (l.flatMap f).filter (fun i => decide (key i = k)) = f k := by
  intro l
  induction l with
  | nil => intro _ hk _; simp at hk
  | cons k' l' ih =>
    intro hnd hk hpure
    rw [List.flatMap_cons, List.filter_append]
    by_cases hkk : k' = k
    · subst hkk
      have h1 : (f k').filter (fun i => decide (key i = k')) = f k' :=
        List.filter_eq_self.mpr
          (fun i hi => by simpa using hpure k' (List.mem_cons_self _ _) i hi)
      have h2 : (l'.flatMap f).filter (fun i => decide (key i = k')) = [] := by
        rw [List.filter_eq_nil_iff]
        intro i hi
        rcases List.mem_flatMap.mp hi with ⟨k'', hk'', hik''⟩
        have hik : key i = k'' := hpure k'' (List.mem_cons_of_mem _ hk'') i hik''
        have hne : k'' ≠ k' := fun he => (List.nodup_cons.mp hnd).1 (he ▸ hk'')
        simpa [hik] using hne
      rw [h1, h2, List.append_nil]
    · have h1 : (f k').filter (fun i => decide (key i = k)) = [] := by
        rw [List.filter_eq_nil_iff]
        intro i hi
        have hik : key i = k' := hpure k' (List.mem_cons_self _ _) i hi
        simpa [hik] using hkk
      have hk2 : k ∈ l' := by
        rcases List.mem_cons.mp hk with rfl | h
        · exact absurd rfl hkk
        · exact h
      rw [h1, List.nil_append]
      exact ih (List.nodup_cons.mp hnd).2 hk2
        (fun k'' hk'' => hpure k'' (List.mem_cons_of_mem _ hk''))

/-- Restricting the resolver's output to one key recovers exactly that
group's processed list. -/
lemma dedup_filter_eq (issues : List Issue) (k : String × Int)
    (hk : k ∈ groupKeys issues) :
    (deduplicate_issues issues).filter (fun i => decide (key i = k))
      = processGroup (groupOf issues k) := by
  unfold deduplicate_issues
  exact filter_flatMap_unique (fun k' => processGroup (groupOf issues k')) k
    (groupKeys issues) (groupKeys_nodup issues) hk
    (fun k' _ => processGroup_key (groupOf issues k') k' (groupOf_key issues k'))

end IssueDeduplicator

namespace IssueDeduplicator

/-- Membership in the resolver's output decomposes into membership in
one group's processed list, identified by the member's own key. -/
lemma mem_dedup_group (issues : List Issue) (k : String × Int) (i : Issue)
    (hi : i ∈ deduplicate_issues issues) (hik : key i = k) :
    i ∈ processGroup (groupOf issues k) := by
  have hi2 : i ∈ (groupKeys issues).flatMap
      (fun k' => processGroup (groupOf issues k')) := hi
  rcases List.mem_flatMap.mp hi2 with ⟨k', hk', hi'⟩
  have hk'' : key i = k' :=
    processGroup_key (groupOf issues k') k' (groupOf_key issues k') i hi'
  rw [← hik, hk'']
  exact hi'

end IssueDeduplicator

/-- Claim C5 (resolver conflict rule): in the resolver's output,
(1) when a `(file_path, line_number)` group contains two `ReplaceLine`
edits with differing payloads, every output edit of that group is
marked `conflict`, its cross-reference list holding exactly the ids of
all the other edits of the group; (2) a group whose `ReplaceLine`
payloads all agree — in particular one holding only
`InsertAfterLine`/`Annotate` edits — is never marked `conflict`. -/
theorem dedup_conflict_rule (issues : List Issue) (k : String × Int) :
    ((∃ a ∈ IssueDeduplicator.groupOf issues k, ∃ b ∈ IssueDeduplicator.groupOf issues k,
        a.action = "replace_line" ∧ b.action = "replace_line" ∧ a.code ≠ b.code) →
      ∀ i ∈ IssueDeduplicator.deduplicate_issues issues, IssueDeduplicator.key i = k →
        i.status = "conflict" ∧
        (∀ j ∈ IssueDeduplicator.groupOf issues k, j.id ≠ i.id → j.id ∈ i.conflict_with) ∧
        (∀ c ∈ i.conflict_with, c ≠ i.id ∧
          ∃ j ∈ IssueDeduplicator.groupOf issues k, j.id = c)) ∧
    ((∀ a ∈ IssueDeduplicator.groupOf issues k, ∀ b ∈ IssueDeduplicator.groupOf issues k,
        a.action = "replace_line" → b.action = "replace_line" → a.code = b.code) →
      (∀ j ∈ IssueDeduplicator.groupOf issues k, j.status ≠ "conflict") →
      ∀ i ∈ IssueDeduplicator.deduplicate_issues issues, IssueDeduplicator.key i = k →
        i.status ≠ "conflict") := by
  constructor
  · rintro ⟨a, ha, b, hb, haa, hba, hcode⟩ i hi hik
    have hi' := IssueDeduplicator.mem_dedup_group issues k i hi hik
    have hab : a ≠ b := fun he => hcode (by rw [he])
    have hlen : (IssueDeduplicator.groupOf issues k).length ≠ 1 := by
      have := IssueDeduplicator.two_mem_one_lt_length _ a b ha hb hab
      omega
    have hcpc : IssueDeduplicator.check_patch_conflict
        (IssueDeduplicator.groupOf issues k) = true :=
      (IssueDeduplicator.check_conflict_iff _).mpr ⟨a, ha, b, hb, haa, hba, hcode⟩
    unfold IssueDeduplicator.processGroup at hi'
    rw [if_neg hlen, if_pos hcpc] at hi'
    rcases List.mem_map.mp hi' with ⟨j, hj, hji⟩
    subst hji
    refine ⟨rfl, ?_, ?_⟩
    · intro j' hj' hne
      refine List.mem_filter.mpr ⟨List.mem_map.mpr ⟨j', hj', rfl⟩, ?_⟩
      simpa using hne
    · intro c hc
      have hc' := List.mem_filter.mp hc
      refine ⟨by simpa using hc'.2, ?_⟩
      rcases List.mem_map.mp hc'.1 with ⟨j', hj', hcj'⟩
      exact ⟨j', hj', hcj'⟩
  · intro hnc hst i hi hik
    have hi' := IssueDeduplicator.mem_dedup_group issues k i hi hik
    have hcpc : IssueDeduplicator.check_patch_conflict
        (IssueDeduplicator.groupOf issues k) = false := by
      cases hcc : IssueDeduplicator.check_patch_conflict (IssueDeduplicator.groupOf issues k)
      · rfl
      · exfalso
        rcases (IssueDeduplicator.check_conflict_iff _).mp hcc
          with ⟨a, ha, b, hb, haa, hba, hcode⟩
        exact hcode (hnc a ha b hb haa hba)
    unfold IssueDeduplicator.processGroup at hi'
    split at hi'
    · exact hst i hi'
    · rw [if_neg (by rw [hcpc]; simp)] at hi'
      rcases hsort : IssueDeduplicator.stableSortDesc IssueDeduplicator.sevRank
          (IssueDeduplicator.groupOf issues k) with _ | ⟨kept, others⟩
      · rw [hsort] at hi'; simp at hi'
      · rw [hsort] at hi'
        rcases List.mem_cons.mp hi' with rfl | hi''
        · refine hst i ?_
          exact (IssueDeduplicator.stableSortDesc_perm IssueDeduplicator.sevRank _).mem_iff.mp
            (by rw [hsort]; exact List.mem_cons_self _ _)
        · rcases List.mem_map.mp hi'' with ⟨j, _, hji⟩
          rw [← hji]
          show ("superseded" : String) ≠ "conflict"
          decide

/-- Witness for C5: two `replace_line` edits on `(fileA, 10)` with
payloads `"foo"` and `"bar"`: the first output edit is marked
`conflict` cross-referencing exactly the other edit's id. -/
theorem dedup_conflict_rule_witness :
    (⟨1, "fileA", 10, "replace_line", "foo", "high", "conflict", [2], none⟩ : Issue).status
        = "conflict" ∧
    (∀ j ∈ IssueDeduplicator.groupOf
        [⟨1, "fileA", 10, "replace_line", "foo", "high", "pending", [], none⟩,
         ⟨2, "fileA", 10, "replace_line", "bar", "high", "pending", [], none⟩] ("fileA", 10),
      j.id ≠ (⟨1, "fileA", 10, "replace_line", "foo", "high", "conflict", [2], none⟩ : Issue).id →
      j.id ∈ (⟨1, "fileA", 10, "replace_line", "foo", "high", "conflict", [2], none⟩
        : Issue).conflict_with) ∧
    (∀ c ∈ (⟨1, "fileA", 10, "replace_line", "foo", "high", "conflict", [2], none⟩
        : Issue).conflict_with,
      c ≠ (⟨1, "fileA", 10, "replace_line", "foo", "high", "conflict", [2], none⟩ : Issue).id ∧
      ∃ j ∈ IssueDeduplicator.groupOf
        [⟨1, "fileA", 10, "replace_line", "foo", "high", "pending", [], none⟩,
         ⟨2, "fileA", 10, "replace_line", "bar", "high", "pending", [], none⟩] ("fileA", 10),
        j.id = c) :=
  (dedup_conflict_rule
      [⟨1, "fileA", 10, "replace_line", "foo", "high", "pending", [], none⟩,
       ⟨2, "fileA", 10, "replace_line", "bar", "high", "pending", [], none⟩]
      ("fileA", 10)).1
    (by decide)
    ⟨1, "fileA", 10, "replace_line", "foo", "high", "conflict", [2], none⟩
    (by decide) (by decide)

/-- Claim C6 (resolver supersede rule): for every non-conflicting
group of two or more edits, the resolver's output for that group
consists of exactly one edit kept verbatim (status unchanged) followed
by every other edit of the group marked `superseded` with a
back-reference to the kept edit's id; the kept edit is of maximal
severity rank and, among the maximal ones, the earliest in input
order. -/
theorem dedup_supersede_rule (issues : List Issue) (k : String × Int)
    (hlen : 2 ≤ (IssueDeduplicator.groupOf issues k).length)
    (hnc : ∀ a ∈ IssueDeduplicator.groupOf issues k,
      ∀ b ∈ IssueDeduplicator.groupOf issues k,
      a.action = "replace_line" → b.action = "replace_line" → a.code = b.code) :
    ∃ kept others,
      (IssueDeduplicator.deduplicate_issues issues).filter
          (fun i => decide (IssueDeduplicator.key i = k))
        = kept :: others.map (fun i =>
            { i with status := "superseded", superseded_by := some kept.id }) ∧
      (kept :: others).Perm (IssueDeduplicator.groupOf issues k) ∧
      (∃ l1 l2, IssueDeduplicator.groupOf issues k = l1 ++ kept :: l2 ∧
        ∀ j ∈ l1, IssueDeduplicator.sevRank j < IssueDeduplicator.sevRank kept) ∧
      (∀ j ∈ IssueDeduplicator.groupOf issues k,
        IssueDeduplicator.sevRank j ≤ IssueDeduplicator.sevRank kept) := by
  have hg0 : IssueDeduplicator.groupOf issues k ≠ [] := by
    intro h
    rw [h] at hlen
    simp at hlen
  have hk : k ∈ IssueDeduplicator.groupKeys issues := by
    rcases List.exists_mem_of_ne_nil _ hg0 with ⟨i, hi⟩
    exact (IssueDeduplicator.mem_groupKeys issues k).mpr
      ⟨i, (List.mem_filter.mp hi).1, by simpa using (List.mem_filter.mp hi).2⟩
  have hcpc : IssueDeduplicator.check_patch_conflict
      (IssueDeduplicator.groupOf issues k) = false := by
    cases hcc : IssueDeduplicator.check_patch_conflict (IssueDeduplicator.groupOf issues k)
    · rfl
    · exfalso
      rcases (IssueDeduplicator.check_conflict_iff _).mp hcc
        with ⟨a, ha, b, hb, haa, hba, hcode⟩
      exact hcode (hnc a ha b hb haa hba)
  rcases IssueDeduplicator.sortDesc_cons_max IssueDeduplicator.sevRank
    (IssueDeduplicator.groupOf issues k) hg0 with ⟨kept, rest, hsort, hdec, hmax⟩
  refine ⟨kept, rest, ?_, ?_, hdec, hmax⟩
  · rw [IssueDeduplicator.dedup_filter_eq issues k hk]
    unfold IssueDeduplicator.processGroup
    rw [if_neg (by omega), if_neg (by rw [hcpc]; simp), hsort]
  · have := IssueDeduplicator.stableSortDesc_perm IssueDeduplicator.sevRank
      (IssueDeduplicator.groupOf issues k)
    rw [hsort] at this
    exact this

/-- Witness for C6: a `critical` and a `low` edit on `(fileA, 12)`,
non-conflicting: the kept edit is the critical one, the low one is
superseded referencing it. -/
theorem dedup_supersede_rule_witness :
    ∃ kept others,
      (IssueDeduplicator.deduplicate_issues
          [⟨1, "fileA", 12, "insert_after_line", "x", "critical", "pending", [], none⟩,
           ⟨2, "fileA", 12, "insert_after_line", "y", "low", "pending", [], none⟩]).filter
          (fun i => decide (IssueDeduplicator.key i = ("fileA", 12)))
        = kept :: others.map (fun i =>
            { i with status := "superseded", superseded_by := some kept.id }) ∧
      (kept :: others).Perm (IssueDeduplicator.groupOf
          [⟨1, "fileA", 12, "insert_after_line", "x", "critical", "pending", [], none⟩,
           ⟨2, "fileA", 12, "insert_after_line", "y", "low", "pending", [], none⟩]
          ("fileA", 12)) ∧
      (∃ l1 l2, IssueDeduplicator.groupOf
          [⟨1, "fileA", 12, "insert_after_line", "x", "critical", "pending", [], none⟩,
           ⟨2, "fileA", 12, "insert_after_line", "y", "low", "pending", [], none⟩]
          ("fileA", 12) = l1 ++ kept :: l2 ∧
        ∀ j ∈ l1, IssueDeduplicator.sevRank j < IssueDeduplicator.sevRank kept) ∧
      (∀ j ∈ IssueDeduplicator.groupOf
          [⟨1, "fileA", 12, "insert_after_line", "x", "critical", "pending", [], none⟩,
           ⟨2, "fileA", 12, "insert_after_line", "y", "low", "pending", [], none⟩]
          ("fileA", 12),
        IssueDeduplicator.sevRank j ≤ IssueDeduplicator.sevRank kept) :=
  dedup_supersede_rule
    [⟨1, "fileA", 12, "insert_after_line", "x", "critical", "pending", [], none⟩,
     ⟨2, "fileA", 12, "insert_after_line", "y", "low", "pending", [], none⟩]
    ("fileA", 12) (by decide) (by decide)

/-! ## Chunker (`app/services/chunker.py`)

`chunk_file` walks the line list emitting `[start+1, end]` (1-indexed,
inclusive) segments of `chunk_size` lines, where each tentative end is
first adjusted by `_expand_for_semantic_blocks`; the next segment
starts `overlap` lines before the previous end, and the loop breaks
once a segment reaches the end of the file.  We embed the segments by
their `(start_line, end_line)` pairs and drive the loop by a fuel
argument that the theorems show is never exhausted.  Block patterns
are embedded as pairs of per-line opening/closing predicates, since
the regexes in `BLOCK_PATTERNS` match within a single line. -/

namespace Chunker

abbrev Pat := (String → Bool) × (String → Bool)

/-- `_find_closing_tag`: scan at most `max_search` lines from
`start_line` (clamped to the file) for the closing marker. -/
def find_closing_tag (lines : List String) (start_line : Nat)
    (isClose : String → Bool) (total max_search : Nat) : Option Nat :=
  (List.range' start_line (min (start_line + max_search) total - start_line)).find?
    (fun i => isClose (lines.getD i ""))

/-- Lines of the tentative chunk `[start, e0)` whose text matches the
opening marker (the Python code regex-scans the joined chunk body). -/
def openLines (lines : List String) (isOpen : String → Bool) (start e0 : Nat) : List Nat :=
  (List.range' start (e0 - start)).filter (fun i => isOpen (lines.getD i ""))

/-- Inner loop of `_expand_for_semantic_blocks` for one block pattern:
for each opening marker in the original chunk body, look for its
closing marker within a 100-line window and extend the end past it
when it lies at or beyond the current end. -/
def expand_one (lines : List String) (total : Nat) (p : Pat)
    (start e0 e : Nat) : Nat :=
  (openLines lines p.1 start e0).foldl (fun acc ol =>
    match find_closing_tag lines ol p.2 total 100 with
    | some cl => if acc ≤ cl then min (cl + 1) total else acc
    | none => acc) e

/-- `_expand_for_semantic_blocks`: fold the adjustment over all block
patterns; the opening markers are found in the chunk body delimited by
the original tentative end `e0`, while the running end `e` is threaded
through. -/
def expand_for_semantic_blocks (pats : List Pat) (lines : List String)
    (start e0 total : Nat) : Nat :=
  pats.foldl (fun e p => expand_one lines total p start e0 e) e0

/-- The `while start < total_lines` loop of `chunk_file`. -/
def chunkLoop (expand : Nat → Nat → Nat) (chunkSize overlap total : Nat) :
    Nat → Nat → List (Nat × Nat)
  | 0, _ => []
  | fuel + 1, start =>
    if start < total then
      if total ≤ expand start (min (start + chunkSize) total) - overlap ∨
          total ≤ expand start (min (start + chunkSize) total) then
        [(start + 1, expand start (min (start + chunkSize) total))]
      else
        (start + 1, expand start (min (start + chunkSize) total)) ::
          chunkLoop expand chunkSize overlap total fuel
            (expand start (min (start + chunkSize) total) - overlap)
    else []

/-- `Chunker.chunk_file`, keeping each segment's
`(start_line, end_line)`. -/
def chunk_file (pats : List Pat) (lines : List String)
    (chunkSize overlap : Nat) : List (Nat × Nat) :=
  chunkLoop (fun s e => expand_for_semantic_blocks pats lines s e lines.length)
    chunkSize overlap lines.length lines.length 0

/-- The trivial-expansion instance of the loop with the default
`chunk_size = 180`, `overlap = 20`. -/
def chunkT (total : Nat) : Nat → Nat → List (Nat × Nat) :=
  chunkLoop (fun _ e => e) 180 20 total

def scriptPat : Pat := (fun s => s == "<script>", fun s => s == "</script>")

/-- A 220-line file whose script block opens at line 170 and closes at
line 210 (1-indexed). -/
def scriptLines : List String :=
  (List.range 220).map (fun i =>
    if i = 169 then "<script>" else if i = 209 then "</script>" else "x")

/-- Like `scriptLines` but with the script block never closed. -/
def scriptLinesOpen : List String :=
  (List.range 220).map (fun i => if i = 169 then "<script>" else "x")

end Chunker

namespace Chunker

lemma chunkLoop_congr (f g : Nat → Nat → Nat) (c o t : Nat)
    (h : ∀ s e, f s e = g s e) :
    ∀ fuel start, chunkLoop f c o t fuel start = chunkLoop g c o t fuel start := by
  intro fuel
  induction fuel with
  | zero => intro start; rfl
  | succ m ih =>
    intro start
    show chunkLoop f c o t (m + 1) start = chunkLoop g c o t (m + 1) start
    simp only [chunkLoop]
    rw [h]
    split
    · split
      · rfl
      · rw [ih]
    · rfl

lemma chunkT_eq (total fuel start : Nat) (h : start < total) :
    chunkT total (fuel + 1) start
      = if total ≤ start + 180 then [(start + 1, total)]
        else (start + 1, start + 180) :: chunkT total fuel (start + 160) := by
  show chunkLoop (fun _ e => e) 180 20 total (fuel + 1) start = _
  simp only [chunkLoop]
  rw [if_pos h]
  by_cases hc : total ≤ start + 180
  · have hmin : min (start + 180) total = total := by omega
    rw [hmin, if_pos hc, if_pos (Or.inr le_rfl)]
  · have hmin : min (start + 180) total = start + 180 := by omega
    rw [hmin, if_neg hc,
      if_neg (by omega : ¬ (total ≤ start + 180 - 20 ∨ total ≤ start + 180))]
    have h160 : start + 180 - 20 = start + 160 := by omega
    rw [h160]
    rfl

lemma chunkT_cover (total : Nat) :
    ∀ fuel start, start < total → total - start ≤ fuel →
      ∀ l, start < l → l ≤ total →
        ∃ p ∈ chunkT total fuel start, p.1 ≤ l ∧ l ≤ p.2 := by
  intro fuel
  induction fuel with
  | zero => intro start h1 h2; exact absurd h2 (by omega)
  | succ m ih =>
    intro start h1 h2 l hl1 hl2
    rw [chunkT_eq total m start h1]
    by_cases hc : total ≤ start + 180
    · rw [if_pos hc]
      exact ⟨(start + 1, total), List.mem_singleton.mpr rfl, by omega, hl2⟩
    · rw [if_neg hc]
      by_cases hsplit : l ≤ start + 180
      · exact ⟨(start + 1, start + 180), List.mem_cons_self _ _, by omega, hsplit⟩
      · rcases ih (start + 160) (by omega) (by omega) l (by omega) hl2 with ⟨p, hp, hpl⟩
        exact ⟨p, List.mem_cons_of_mem _ hp, hpl⟩

lemma chunkT_head (total fuel start : Nat) (h1 : start < total)
    (h2 : total - start ≤ fuel) :
    (chunkT total fuel start).getD 0 (0, 0) = (start + 1, min (start + 180) total) ∧
    chunkT total fuel start ≠ [] := by
  cases fuel with
  | zero => exact absurd h2 (by omega)
  | succ m =>
    rw [chunkT_eq total m start h1]
    by_cases hc : total ≤ start + 180
    · rw [if_pos hc]
      have hmin : min (start + 180) total = total := by omega
      rw [hmin]
      exact ⟨rfl, by simp⟩
    · rw [if_neg hc]
      have hmin : min (start + 180) total = start + 180 := by omega
      rw [hmin]
      exact ⟨rfl, by simp⟩

lemma chunkT_chain (total : Nat) :
    ∀ fuel start, start < total → total - start ≤ fuel →
      ∀ i, i + 1 < (chunkT total fuel start).length →
        ((chunkT total fuel start).getD (i + 1) (0, 0)).1 + 19
            = ((chunkT total fuel start).getD i (0, 0)).2 ∧
        ((chunkT total fuel start).getD i (0, 0)).2
            < ((chunkT total fuel start).getD (i + 1) (0, 0)).2 := by
  intro fuel
  induction fuel with
  | zero => intro start h1 h2; exact absurd h2 (by omega)
  | succ m ih =>
    intro start h1 h2 i hi
    rw [chunkT_eq total m start h1] at hi ⊢
    by_cases hc : total ≤ start + 180
    · rw [if_pos hc] at hi ⊢
      simp at hi
    · rw [if_neg hc] at hi ⊢
      cases i with
      | zero =>
        have hrest := chunkT_head total m (start + 160) (by omega) (by omega)
        simp only [List.getD_cons_succ, List.getD_cons_zero]
        rw [hrest.1]
        constructor
        · show start + 160 + 1 + 19 = start + 180
          omega
        · show start + 180 < min (start + 160 + 180) total
          omega
      | succ i' =>
        simp only [List.getD_cons_succ]
        have hi' : i' + 1 < (chunkT total m (start + 160)).length := by
          simpa using hi
        exact ih (start + 160) (by omega) (by omega) i' hi'

lemma chunkT_pos (total : Nat) :
    ∀ fuel start, start < total → total - start ≤ fuel →
      ∀ p ∈ chunkT total fuel start, p.1 ≤ p.2 := by
  intro fuel
  induction fuel with
  | zero => intro start h1 h2; exact absurd h2 (by omega)
  | succ m ih =>
    intro start h1 h2 p hp
    rw [chunkT_eq total m start h1] at hp
    by_cases hc : total ≤ start + 180
    · rw [if_pos hc] at hp
      rcases List.mem_singleton.mp hp with rfl
      show start + 1 ≤ total
      omega
    · rw [if_neg hc] at hp
      rcases List.mem_cons.mp hp with rfl | hp'
      · show start + 1 ≤ start + 180
        omega
      · exact ih (start + 160) (by omega) (by omega) p hp'

end Chunker

/-- Claim C7 (segmenter coverage and overlap): with `chunk_size = 180`,
`overlap = 20` and no semantic-block expansion triggered, for every
non-empty file: (1) every line `1 ≤ l ≤ N` is covered by some
segment's `[startLine, endLine]` range — no gaps; (2) each next
segment starts exactly 19 lines before the previous end, i.e.
consecutive segments overlap by exactly 20 lines; (3) segment end
lines strictly increase, so no duplicate trailing segment is emitted;
(4) every segment is non-empty (`startLine ≤ endLine`); and (5) a
200-line file yields exactly the 2 segments `[1,180]` and
`[161,200]`. -/
theorem chunker_coverage (pats : List Chunker.Pat) (lines : List String)
    (hN : 0 < lines.length)
    (hexp : ∀ s e, Chunker.expand_for_semantic_blocks pats lines s e lines.length = e) :
    (∀ l, 0 < l → l ≤ lines.length →
      ∃ p ∈ Chunker.chunk_file pats lines 180 20, p.1 ≤ l ∧ l ≤ p.2) ∧
    (∀ i, i + 1 < (Chunker.chunk_file pats lines 180 20).length →
      ((Chunker.chunk_file pats lines 180 20).getD (i + 1) (0, 0)).1 + 19
        = ((Chunker.chunk_file pats lines 180 20).getD i (0, 0)).2 ∧
      ((Chunker.chunk_file pats lines 180 20).getD i (0, 0)).2
        < ((Chunker.chunk_file pats lines 180 20).getD (i + 1) (0, 0)).2) ∧
    (∀ p ∈ Chunker.chunk_file pats lines 180 20, p.1 ≤ p.2) ∧
    (lines.length = 200 →
      Chunker.chunk_file pats lines 180 20 = [(1, 180), (161, 200)]) := by
  have hcf : Chunker.chunk_file pats lines 180 20
      = Chunker.chunkT lines.length lines.length 0 :=
    Chunker.chunkLoop_congr _ _ 180 20 lines.length hexp lines.length 0
  rw [hcf]
  refine ⟨?_, ?_, ?_, ?_⟩
  · intro l hl1 hl2
    exact Chunker.chunkT_cover lines.length lines.length 0 hN (by omega) l hl1 hl2
  · intro i hi
    exact Chunker.chunkT_chain lines.length lines.length 0 hN (by omega) i hi
  · intro p hp
    exact Chunker.chunkT_pos lines.length lines.length 0 hN (by omega) p hp
  · intro h200
    rw [h200]
    decide

/-- Witness for C7: 200 lines, no block patterns: exactly the segments
`[1,180]` and `[161,200]`. -/
theorem chunker_coverage_witness :
    Chunker.chunk_file [] (List.replicate 200 "x") 180 20 = [(1, 180), (161, 200)] :=
  (chunker_coverage [] (List.replicate 200 "x") (by rw [List.length_replicate]; omega)
      (fun _ _ => rfl)).2.2.2 (by rw [List.length_replicate])

namespace Chunker

lemma foldl_close_none (lines : List String) (total : Nat) (p : Pat) :
    ∀ L : List Nat, (∀ ol ∈ L, find_closing_tag lines ol p.2 total 100 = none) →
      ∀ e, L.foldl (fun acc ol =>
        match find_closing_tag lines ol p.2 total 100 with
        | some cl => if acc ≤ cl then min (cl + 1) total else acc
        | none => acc) e = e := by
  intro L
  induction L with
  | nil => intro _ e; rfl
  | cons x xs ih =>
    intro hL e
    simp only [List.foldl_cons, hL x (List.mem_cons_self _ _)]
    exact ih (fun ol hol => hL ol (List.mem_cons_of_mem _ hol)) e

lemma expand_one_none (lines : List String) (total : Nat) (p : Pat) (s e0 : Nat)
    (h : ∀ ol ∈ openLines lines p.1 s e0, find_closing_tag lines ol p.2 total 100 = none) :
    expand_one lines total p s e0 e0 = e0 :=
  foldl_close_none lines total p (openLines lines p.1 s e0) h e0

end Chunker

set_option maxRecDepth 400000 in
/-- Claim C8 (semantic non-splitting): (1) on a 220-line file whose
script block opens at line 170 and closes at line 210, the first
segment — whose tentative end would fall at line 180 — gets its end
extended to 210; (2) `_find_closing_tag` only ever reports a closing
marker within the 100-line window starting at the opening marker's
line; (3) when no closing marker is found within the window for any
opening marker, the end line is not extended at all. -/
theorem chunker_semantic_expansion :
    (Chunker.chunk_file [Chunker.scriptPat] Chunker.scriptLines 180 20).getD 0 (0, 0)
        = (1, 210) ∧
    (∀ (lines : List String) (startL total cl : Nat) (isClose : String → Bool),
      Chunker.find_closing_tag lines startL isClose total 100 = some cl →
      startL ≤ cl ∧ cl < startL + 100 ∧ isClose (lines.getD cl "") = true) ∧
    (∀ (pats : List Chunker.Pat) (lines : List String) (s e0 total : Nat),
      (∀ p ∈ pats, ∀ ol ∈ Chunker.openLines lines p.1 s e0,
        Chunker.find_closing_tag lines ol p.2 total 100 = none) →
      Chunker.expand_for_semantic_blocks pats lines s e0 total = e0) := by
  refine ⟨by decide, ?_, ?_⟩
  · intro lines startL total cl isClose h
    unfold Chunker.find_closing_tag at h
    have hmem := List.mem_of_find?_eq_some h
    have hp := List.find?_some h
    rw [List.mem_range'_1] at hmem
    exact ⟨hmem.1, by omega, hp⟩
  · intro pats lines s e0 total hnone
    unfold Chunker.expand_for_semantic_blocks
    revert hnone
    induction pats with
    | nil => intro _; rfl
    | cons p ps ih =>
      intro hnone
      rw [List.foldl_cons]
      rw [Chunker.expand_one_none lines total p s e0 (hnone p (List.mem_cons_self _ _))]
      exact ih (fun p' hp' => hnone p' (List.mem_cons_of_mem _ hp'))

set_option maxRecDepth 400000 in
/-- Witness for C8: with the script block left unclosed, no closing
marker exists in the window and the tentative end 180 is kept. -/
theorem chunker_semantic_expansion_witness :
    Chunker.expand_for_semantic_blocks [Chunker.scriptPat] Chunker.scriptLinesOpen 0 180 220
      = 180 := by
  apply chunker_semantic_expansion.2.2
  have hopen : Chunker.openLines Chunker.scriptLinesOpen Chunker.scriptPat.1 0 180
      = [169] := by decide
  intro p hp ol hol
  rcases List.mem_singleton.mp hp with rfl
  rw [hopen] at hol
  rcases List.mem_singleton.mp hol with rfl
  decide
